import Mathlib

/-!
Verification of the Extraction Orchestration & Download Job subsystem of
VelocityBackend against its natural-language specification.

The Python sources under `src/app/` are shallowly embedded:

* `app/services/ytdlp_service.py` — `is_hls_format`, `pick_best_audio`,
  `run_extract` (its retry/backoff control flow and the lifecycle of the
  staged cookie file, with the external `yt-dlp` call abstracted as a
  script of per-attempt outcomes).
* `app/services/cache.py` — `MemoryCache` over association lists; the
  `time.time()` axis is modelled by integers (the code only compares
  differences of timestamps against the TTL, so any linearly ordered
  additive time domain is faithful).
* `app/services/rate_limit.py` — `RateLimiter`, with the per-client
  `defaultdict` modelled as a total function `String → List ℤ`.
* `app/services/download_service.py` — the job dictionary, `cancel`,
  the progress hook and the retry loop of `_run`, driven by a script of
  external events (progress callbacks, interleaved cancellation
  requests, and the final outcome of each `ydl.download` attempt).
  Byte counts and progress percentages are rationals, matching Python's
  exact `downloaded / total * 100` on the inputs considered.
* `app/main.py` — the `/download` handler's call arity versus the
  declared signature of `DownloadManager.start`.

Strings are compared with hand-rolled substring and lower-casing
functions so that every definition evaluates inside the kernel.
-/

/-! ### String helpers (substring containment, ASCII lower-casing, basename) -/

/-- ASCII lower-casing of one character, as Python `str.lower` acts on the
ASCII range used by the protocol markers and error messages here. -/
def lowChar (c : Char) : Char :=
  if 65 ≤ c.toNat ∧ c.toNat ≤ 90 then Char.ofNat (c.toNat + 32) else c

/-- Lower-case a string character-wise. -/
def lowStr (s : String) : String := ⟨s.data.map lowChar⟩

/-- Does the second character list start with the first? -/
def listPre : List Char → List Char → Bool
  | [], _ => true
  | _ :: _, [] => false
  | a :: as, b :: bs => a == b && listPre as bs

/-- Does the pattern occur contiguously inside the list? -/
def listHas (pat : List Char) : List Char → Bool
  | [] => listPre pat []
  | b :: rest => listPre pat (b :: rest) || listHas pat rest

/-- Python's `pat in s` substring test. -/
def strHas (pat s : String) : Bool := listHas pat.data s.data

/-- Python `os.path.basename` on POSIX paths: the part after the last slash. -/
def basename (s : String) : String := ((s.splitOn "/").getLast?).getD s

/-! ### FormatCatalog — `app/services/ytdlp_service.py`

An encoding descriptor (`Fmt`) carries the fields of the yt-dlp format
dictionaries that the functions under verification read.  A missing
dictionary key is `none`. -/

structure Fmt where
  format_id : Option String := none
  ext : Option String := none
  protocol : Option String := none
  url : Option String := none
  vcodec : Option String := none
  acodec : Option String := none
  height : Option Nat := none
  abr : Option ℚ := none
  tbr : Option ℚ := none
deriving DecidableEq, Repr

/-- Function `is_hls_format` (ytdlp_service.py:21-30): manifest-delivery detection by
case-insensitive markers on protocol, extension and URL.
`fmt.get("protocol") or ""` maps both a missing key and an empty string
to `""`, which `Option.getD ""` reproduces. -/
def is_hls_format (f : Fmt) : Bool :=
  let protocol := lowStr (f.protocol.getD "")
  let ext := lowStr (f.ext.getD "")
  let url := lowStr (f.url.getD "")
  strHas "m3u8" protocol || ext == "m3u8" || strHas "m3u8" url || strHas "hls" protocol

/-- Strict lexicographic order on the ranking keys used by Python's
`max(..., key=lambda f: (a, b))`. -/
def lexLt (a b : ℚ × ℚ) : Prop := a.1 < b.1 ∨ (a.1 = b.1 ∧ a.2 < b.2)

/-- Reflexive lexicographic order on ranking keys. -/
def lexLe (a b : ℚ × ℚ) : Prop := a.1 < b.1 ∨ (a.1 = b.1 ∧ a.2 ≤ b.2)

instance (a b : ℚ × ℚ) : Decidable (lexLt a b) := by unfold lexLt; infer_instance

instance (a b : ℚ × ℚ) : Decidable (lexLe a b) := by unfold lexLe; infer_instance

/-- Python's `max(xs, key=key)`: the first element attaining the maximal
key (later elements replace the current maximum only when strictly
greater); `none` on the empty list. -/
def maxByKey (key : Fmt → ℚ × ℚ) : List Fmt → Option Fmt
  | [] => none
  | f :: rest =>
    match maxByKey key rest with
    | none => some f
    | some g => if lexLt (key f) (key g) then some g else some f

/-- The ranking key of `pick_best_audio`: `(f.get("abr") or 0, f.get("tbr") or 0)`.
For the non-negative bitrates at hand, `x or 0` is `Option.getD 0`. -/
def audioKey (f : Fmt) : ℚ × ℚ := (f.abr.getD 0, f.tbr.getD 0)

/-- Audio-only test of `pick_best_audio` (ytdlp_service.py:163):
`f.get("vcodec") == "none" and f.get("acodec") != "none"`; a missing
`vcodec` fails the first conjunct and a missing `acodec` passes the
second, which the `Option String` comparisons reproduce. -/
def isAudioOnly (f : Fmt) : Bool := f.vcodec == some "none" && !(f.acodec == some "none")

/-- Function `pick_best_audio` (ytdlp_service.py:162-168). -/
def pick_best_audio (formats : List Fmt) : Option Fmt :=
  let audio_formats := formats.filter isAudioOnly
  if audio_formats.isEmpty then none
  else
    let non_hls := audio_formats.filter (fun f => !is_hls_format f)
    let candidates := if non_hls.isEmpty then audio_formats else non_hls
    maxByKey audioKey candidates

/-- The candidate set the specification describes for best-audio
selection: the non-manifest audio-only encodings when at least one
exists, otherwise the full audio-only set. -/
def audioCands (formats : List Fmt) : List Fmt :=
  let audio := formats.filter isAudioOnly
  let nonManifest := audio.filter (fun f => !is_hls_format f)
  if nonManifest.isEmpty then audio else nonManifest

/-- A manifest-delivery audio encoding of bitrate 500 (spec §8 example). -/
def fmtHls500 : Fmt :=
  { format_id := some "hls-audio", ext := some "m4a", protocol := some "m3u8_native",
    url := some "https://cdn.example/audio/manifest", vcodec := some "none",
    acodec := some "mp4a.40.2", abr := some 500, tbr := some 500 }

/-- A direct-file audio encoding of bitrate 200 (spec §8 example). -/
def fmtDirect200 : Fmt :=
  { format_id := some "140", ext := some "m4a", protocol := some "https",
    url := some "https://cdn.example/audio/direct", vcodec := some "none",
    acodec := some "mp4a.40.2", abr := some 200, tbr := some 200 }

/-- A manifest-delivery audio encoding of bitrate 64. -/
def fmtHls64 : Fmt :=
  { format_id := some "hls-low", ext := some "m4a", protocol := some "m3u8_native",
    url := some "https://cdn.example/audio/low", vcodec := some "none",
    acodec := some "mp4a.40.2", abr := some 64, tbr := some 64 }

/-- A muxed (audio and video) encoding, not audio-only. -/
def fmtMuxed : Fmt :=
  { format_id := some "18", ext := some "mp4", protocol := some "https",
    url := some "https://cdn.example/muxed", vcodec := some "avc1",
    acodec := some "mp4a.40.2", height := some 360, abr := some 96, tbr := some 500 }

/-! ### Association-list maps with string keys (Python `dict` semantics) -/

/-- Python `d.get(k)` on an association list. -/
def klookup (k : String) : List (String × β) → Option β
  | [] => none
  | (k', v) :: rest => if k' == k then some v else klookup k rest

/-- Python `d[k] = v`: update in place when the key exists, append otherwise. -/
def kset (k : String) (v : β) : List (String × β) → List (String × β)
  | [] => [(k, v)]
  | (k', v') :: rest => if k' == k then (k', v) :: rest else (k', v') :: kset k v rest

/-- Python `d.pop(k, None)`: drop the binding of `k`. -/
def kerase (k : String) (l : List (String × β)) : List (String × β) :=
  l.filter (fun p => !(p.1 == k))

/-! ### ResultCache — `app/services/cache.py`

`MemoryCache` holds two parallel maps and a TTL.  Wall-clock instants
are passed explicitly to `get`/`set` in place of `time.time()`. -/

structure MemoryCache (α : Type) where
  ttl_seconds : ℤ
  cache : List (String × α)
  timestamps : List (String × ℤ)

/-- Method `MemoryCache.get` (cache.py:13-20): absent key gives `None`; a key whose
entry is older than the TTL is purged from both maps and gives `None`;
otherwise the payload is returned with the cache untouched.
`self._timestamps.get(key, 0)` supplies the default 0. -/
def MemoryCache.get (m : MemoryCache α) (key : String) (now : ℤ) : Option α × MemoryCache α :=
  match klookup key m.cache with
  | none => (none, m)
  | some v =>
    if m.ttl_seconds < now - ((klookup key m.timestamps).getD 0) then
      (none, { m with cache := kerase key m.cache, timestamps := kerase key m.timestamps })
    else
      (some v, m)

/-- Method `MemoryCache.set` (cache.py:22-24). -/
def MemoryCache.set (m : MemoryCache α) (key : String) (value : α) (now : ℤ) : MemoryCache α :=
  { m with cache := kset key value m.cache, timestamps := kset key now m.timestamps }

/-- Method `MemoryCache.clear` (cache.py:26-28). -/
def MemoryCache.clear (m : MemoryCache α) : MemoryCache α :=
  { m with cache := [], timestamps := [] }

/-- Method `MemoryCache.size` (cache.py:30-31): `len(self._cache)`. -/
def MemoryCache.size (m : MemoryCache α) : Nat := m.cache.length

/-! ### AdmissionLimiter — `app/services/rate_limit.py`

The per-client `defaultdict(list)` is modelled as a total function with
default `[]`; `client_count` is not involved in any claim, and reading a
missing key never affects `allow`'s result. -/

structure RateLimiter where
  limit : Nat
  window_seconds : ℤ
  requests : String → List ℤ

/-- Method `RateLimiter.allow` (rate_limit.py:14-20): prune timestamps older than
the window, reject without recording when the pruned count reaches the
limit, otherwise append `now` and accept.  Both branches store the
pruned list back, as the Python assignment does. -/
def RateLimiter.allow (rl : RateLimiter) (client_id : String) (now : ℤ) : Bool × RateLimiter :=
  let pruned := (rl.requests client_id).filter (fun t => now - t < rl.window_seconds)
  if rl.limit ≤ pruned.length then
    (false, { rl with requests := fun c => if c = client_id then pruned else rl.requests c })
  else
    (true, { rl with requests := fun c => if c = client_id then pruned ++ [now] else rl.requests c })

/-- A sequence of `allow` calls for one client at the given instants,
returning the final limiter and the list of results in order. -/
def allowRun (rl : RateLimiter) (c : String) : List ℤ → RateLimiter × List Bool
  | [] => (rl, [])
  | t :: rest =>
    let step := rl.allow c t
    let tail := allowRun step.2 c rest
    (tail.1, step.1 :: tail.2)

/-! ### ExtractionClient — `run_extract` in `app/services/ytdlp_service.py`

The external `ydl.extract_info` call is abstracted as a script of
per-attempt outcomes.  The model tracks, alongside the retry control
flow, the lifecycle of the staged cookie file: whether it exists at the
start of each executed attempt, how many times the per-attempt `finally`
block runs `os.remove`, and how many of those removals succeed (a
removal of an already-deleted file raises `OSError`, which the code
swallows). -/

/-- Outcome of one `ydl.extract_info` attempt. -/
inductive ExtractOutcome where
  | success
  | failure (msg : String)
deriving DecidableEq, Repr

/-- Rate-limit detection of `run_extract` (ytdlp_service.py:80-82):
`"429" in str(exc).lower() or "too many requests" in str(exc).lower()`. -/
def isRateLimited (msg : String) : Bool :=
  strHas "429" (lowStr msg) || strHas "too many requests" (lowStr msg)

/-- The `max_retries` default of `run_extract` (ytdlp_service.py:33). -/
def extractMaxRetries : Nat := 3

instance : DecidableEq (Except String Unit) := fun a b =>
  match a, b with
  | Except.ok (), Except.ok () => isTrue rfl
  | Except.error x, Except.error y =>
    if h : x = y then isTrue (by rw [h]) else isFalse (fun he => h (by cases he; rfl))
  | Except.ok _, Except.error _ => isFalse (fun he => by cases he)
  | Except.error _, Except.ok _ => isFalse (fun he => by cases he)

/-- Observable trace of one `run_extract` call with cookie material. -/
structure ExtractTrace where
  result : Except String Unit
  attemptsRun : Nat
  sleeps : List Nat
  cookieAvailable : List Bool
  removeCalls : Nat
  removesSucceeded : Nat
  fileExistsAfter : Bool
deriving DecidableEq, Repr

/-- The retry loop of `run_extract` (ytdlp_service.py:45-98), from loop
index `attempt` with the staged cookie file currently existing iff `fe`.
Each iteration records the file's availability, runs the scripted
outcome, and then executes the `finally` block, which removes the file
(successfully only if it still exists).  A rate-limit-class failure with
`attempt < max_retries - 1` sleeps `(attempt + 1) * 10` seconds and
continues; any other failure, or one on the last permitted attempt,
raises immediately.  An exhausted script (never reached from index 0
with three outcomes supplied) ends the loop. -/
def extractCk : Nat → Bool → List ExtractOutcome → ExtractTrace
  | _, fe, [] => ⟨Except.error "script exhausted", 0, [], [], 0, 0, fe⟩
  | attempt, fe, o :: rest =>
    let removedNow : Nat := if fe then 1 else 0
    match o with
    | ExtractOutcome.success => ⟨Except.ok (), 1, [], [fe], 1, removedNow, false⟩
    | ExtractOutcome.failure msg =>
      if isRateLimited msg && attempt < extractMaxRetries - 1 then
        let t := extractCk (attempt + 1) false rest
        ⟨t.result, t.attemptsRun + 1, (attempt + 1) * 10 :: t.sleeps, fe :: t.cookieAvailable,
          t.removeCalls + 1, removedNow + t.removesSucceeded, t.fileExistsAfter⟩
      else ⟨Except.error msg, 1, [], [fe], 1, removedNow, false⟩

/-- One `run_extract(url, cookies, 3)` call with cookie material staged,
driven by the scripted attempt outcomes. -/
def run_extract (outcomes : List ExtractOutcome) : ExtractTrace :=
  extractCk 0 true outcomes

/-! ### DownloadJobManager — `app/services/download_service.py`

A job is the dictionary built by `DownloadManager.start`
(download_service.py:20-28).  The job table maps job ids to jobs; jobs
are never removed, and every mutation in the source happens under one
coarse lock, so the interleavings a claim speaks about are serialized
into an explicit event script. -/

structure Job where
  job_id : String
  status : String
  progress : ℚ
  filename : Option String
  file_path : Option String
  error : Option String
  cancel : Bool
deriving DecidableEq, Repr

/-- The fresh job `start` registers: status `queued`, progress 0, no
filename, no error, cancellation flag clear. -/
def initialJob (id : String) : Job :=
  { job_id := id, status := "queued", progress := 0, filename := none,
    file_path := none, error := none, cancel := false }

/-- Method `DownloadManager.get` (download_service.py:40-42). -/
def DownloadManager.get (jobs : List (String × Job)) (job_id : String) : Option Job :=
  klookup job_id jobs

/-- Method `DownloadManager.cancel` (download_service.py:44-51): unknown id gives
`False` and leaves the table alone; otherwise the job's cancellation
flag is set, its status is overwritten with `cancelling`, and `True` is
returned. -/
def DownloadManager.cancel (jobs : List (String × Job)) (job_id : String) :
    Bool × List (String × Job) :=
  match klookup job_id jobs with
  | none => (false, jobs)
  | some j => (true, kset job_id { j with cancel := true, status := "cancelling" } jobs)

/-- One yt-dlp progress callback payload: the fields of `d` that the hook
reads.  `downloading` carries `downloaded_bytes`, `total_bytes` and
`total_bytes_estimate`; `finished` carries `filename`. -/
inductive PEvent where
  | downloading (downloaded : Option ℚ) (total : Option ℚ) (totalEstimate : Option ℚ)
  | finished (filename : Option String)
deriving DecidableEq, Repr

/-- Python `x or d` on an optional number: a missing value and the falsy
0 both fall through to the default. -/
def pyOr (x : Option ℚ) (d : ℚ) : ℚ :=
  match x with
  | none => d
  | some v => if v = 0 then d else v

/-- Python `s or d` on an optional string: missing and empty both fall
through. -/
def pyOrS (x : Option String) (d : Option String) : Option String :=
  match x with
  | none => d
  | some v => if v = "" then d else some v

/-- The state update of the progress hook (download_service.py:61-71) once
the cancellation check has passed: a `downloading` callback recomputes
`progress` as `downloaded / total * 100` when the reported total (exact,
else estimate) is truthy and keeps the previous value otherwise, and
sets status `downloading`; a `finished` callback forces progress 100,
status `processing`, stores the reported path and, when that path is
truthy, its basename. -/
def hookUpdate (job : Job) (d : PEvent) : Job :=
  match d with
  | PEvent.downloading downloaded total totalEstimate =>
    let tot := pyOr total (pyOr totalEstimate 0)
    let dl := pyOr downloaded 0
    { job with
      progress := if tot = 0 then job.progress else dl / tot * 100,
      status := "downloading" }
  | PEvent.finished fn =>
    { job with
      progress := 100, status := "processing", file_path := fn,
      filename := match pyOrS fn none with
        | some f => some (basename f)
        | none => job.filename }

/-- The progress hook (download_service.py:54-71): with the job present in
the table, a set cancellation flag raises `Exception("Download
cancelled")` before any field is touched; otherwise the state update
runs. -/
def hook (job : Job) (d : PEvent) : Except String Job :=
  if job.cancel then Except.error "Download cancelled" else Except.ok (hookUpdate job d)

/-- An event observed by the job during one `ydl.download` attempt: a
progress callback, or a concurrent `cancel` request taking the lock
between callbacks. -/
inductive RunEvent where
  | prog (e : PEvent)
  | cancelReq
deriving DecidableEq, Repr

/-- Run the events of one attempt against the job state.  A hook exception
aborts the attempt and is reported as the attempt's error; a
cancellation request applies the `DownloadManager.cancel` field updates. -/
def processEvents : Job → List RunEvent → Job × Option String
  | job, [] => (job, none)
  | job, RunEvent.cancelReq :: rest =>
    processEvents { job with cancel := true, status := "cancelling" } rest
  | job, RunEvent.prog e :: rest =>
    match hook job e with
    | Except.error msg => (job, some msg)
    | Except.ok job' => processEvents job' rest

/-- Script of one `ydl.download` attempt: the events delivered while it
runs, and — when no hook exception cut it short — whether the call
itself returned or raised. -/
structure Attempt where
  events : List RunEvent
  result : Except String Unit
deriving DecidableEq, Repr

/-- One `ydl.download([url])` call (download_service.py:112-113). -/
def runAttempt (job : Job) (a : Attempt) : Job × Option String :=
  match processEvents job a.events with
  | (job1, some msg) => (job1, some msg)
  | (job1, none) =>
    match a.result with
    | Except.ok () => (job1, none)
    | Except.error msg => (job1, some msg)

/-- Result of the `while True` retry loop of `_run`: the final job state,
how many `ydl.download` attempts were started, the backoff sleeps (in
seconds) between them, in order, and the error messages of the failures
that were retried. -/
structure RunOutcome where
  job : Job
  attemptsMade : Nat
  backoffs : List Nat
  retryErrors : List String
deriving DecidableEq, Repr

/-- The `max_retries` of `_run` (download_service.py:108). -/
def runMaxRetries : Nat := 3

/-- The `backoff_seconds` of `_run` (download_service.py:109). -/
def backoffSeconds : Nat := 2

/-- The retry loop of `_run` (download_service.py:107-140), with `failures`
failures recorded so far (the loop starts at 0).  A successful attempt
marks the job `completed` at progress 100 and stops.  A failed attempt
increments the failure count; when the error text contains
`"HTTP Error 429"` and the count is still within `max_retries`, the job
is marked `retrying` with the error recorded and the loop sleeps
`backoff_seconds * failures` before the next attempt, otherwise the job
is marked `failed` with the error recorded and the loop stops.  An
exhausted script ends the loop as no real run can. -/
def runLoop : Job → Nat → List Attempt → RunOutcome
  | job, _, [] => ⟨job, 0, [], []⟩
  | job, failures, a :: rest =>
    match runAttempt job a with
    | (job1, none) => ⟨{ job1 with status := "completed", progress := 100 }, 1, [], []⟩
    | (job1, some msg) =>
      let failures1 := failures + 1
      if strHas "HTTP Error 429" msg && failures1 ≤ runMaxRetries then
        let out := runLoop { job1 with status := "retrying", error := some msg } failures1 rest
        ⟨out.job, out.attemptsMade + 1, backoffSeconds * failures1 :: out.backoffs,
          msg :: out.retryErrors⟩
      else ⟨{ job1 with status := "failed", error := some msg }, 1, [], []⟩

/-- The whole execution path of `_run` for a fresh job. -/
def runJob (id : String) (scripts : List Attempt) : RunOutcome :=
  runLoop (initialJob id) 0 scripts

/-- The successive `progress` values of a job under a list of progress
callbacks (cancellation flag clear throughout). -/
def progressSeq (job : Job) : List PEvent → List ℚ
  | [] => []
  | e :: rest =>
    let job' := hookUpdate job e
    job'.progress :: progressSeq job' rest

/-- A list of rationals is non-decreasing. -/
def monoQ : List ℚ → Prop
  | [] => True
  | [_] => True
  | a :: b :: rest => a ≤ b ∧ monoQ (b :: rest)

/-- A list of naturals is non-decreasing (kernel-evaluable hypothesis
form). -/
def monoN : List ℕ → Bool
  | [] => true
  | [_] => true
  | a :: b :: rest => a ≤ b && monoN (b :: rest)

/-! ### The `/download` handler call — `app/main.py:308-311`

Python binds a call before executing the callee: a call supplying fewer
positional arguments than the callee's required (default-free)
parameters raises `TypeError` without entering the function body.  The
parameter and argument lists below are transcribed from the two
signatures involved. -/

/-- Parameters of `DownloadManager.start` after `self`
(download_service.py:18), none of which has a default. -/
def startParams : List String :=
  ["url", "cookies", "format_id", "output_dir", "max_height", "preferred_ext", "codec", "container"]

/-- Number of `startParams` entries carrying a default value. -/
def startDefaults : Nat := 0

/-- Positional arguments the `/download` handler passes to
`download_manager.start` (main.py:310). -/
def downloadCallArgs : List String := ["url", "cookies", "format_id", "output_dir"]

/-- Python positional binding: a call binds iff it supplies at least the
required parameters and at most all of them. -/
def bindsPositional (supplied required defaults : Nat) : Bool :=
  required - defaults ≤ supplied && supplied ≤ required

/-- The `/download` handler (main.py:308-311) against a job table: when the
call to `start` binds, a fresh job is registered and returned with no
error; otherwise the `TypeError` surfaces before `start` runs, and the
table is untouched. -/
def downloadEndpoint (jobs : List (String × Job)) (freshId : String) :
    Option String × List (String × Job) :=
  if bindsPositional downloadCallArgs.length startParams.length startDefaults then
    (none, kset freshId (initialJob freshId) jobs)
  else
    (some "TypeError", jobs)

/-! ### Helper lemmas on the association-list maps -/

theorem klookup_kset_self (k : String) (v : β) (l : List (String × β)) :
    klookup k (kset k v l) = some v := by
  induction l with
  | nil => simp [kset, klookup]
  | cons p rest ih =>
    obtain ⟨k', v'⟩ := p
    by_cases h : k' = k
    · simp [kset, klookup, h]
    · simp [kset, klookup, h, ih]

theorem klookup_kset_other (k k' : String) (hne : k' ≠ k) (v : β) (l : List (String × β)) :
    klookup k' (kset k v l) = klookup k' l := by
  have hkk : (k == k') = false := by
    simp only [beq_eq_false_iff_ne]
    exact fun he => hne he.symm
  induction l with
  | nil => simp [kset, klookup, hkk]
  | cons p rest ih =>
    obtain ⟨k0, v0⟩ := p
    by_cases h : k0 = k
    · subst h
      simp [kset, klookup, hkk]
    · have hg : (k0 == k) = false := by simp [h]
      simp [kset, klookup, hg, ih]

theorem klookup_kerase_self (k : String) (l : List (String × β)) :
    klookup k (kerase k l) = none := by
  induction l with
  | nil => simp [kerase, klookup]
  | cons p rest ih =>
    obtain ⟨k0, v0⟩ := p
    by_cases h : k0 = k
    · simpa [kerase, klookup, h] using ih
    · simpa [kerase, klookup, h] using ih

theorem kset_same_of_klookup (k : String) (v : β) (l : List (String × β))
    (h : klookup k l = some v) : kset k v l = l := by
  induction l with
  | nil => simp [klookup] at h
  | cons p rest ih =>
    obtain ⟨k0, v0⟩ := p
    by_cases hk : k0 = k
    · simp [klookup, hk] at h
      simp [kset, hk, h]
    · simp [klookup, hk] at h
      simp [kset, hk, ih h]

theorem kerase_of_not_mem (k : String) (l : List (String × β))
    (h : klookup k l = none) : kerase k l = l := by
  induction l with
  | nil => simp [kerase]
  | cons p rest ih =>
    obtain ⟨k0, v0⟩ := p
    by_cases hk : k0 = k
    · simp [klookup, hk] at h
    · simp [klookup, hk] at h
      simpa [kerase, hk] using ih h

theorem mem_keys_of_klookup (k : String) (v : β) (l : List (String × β))
    (h : klookup k l = some v) : k ∈ l.map Prod.fst := by
  induction l with
  | nil => simp [klookup] at h
  | cons p rest ih =>
    obtain ⟨k0, v0⟩ := p
    by_cases hk : k0 = k
    · simp [hk]
    · simp only [klookup, beq_iff_eq, hk, if_false] at h
      simp [ih h]

theorem kerase_length_of_mem (k : String) (l : List (String × β))
    (hnd : (l.map Prod.fst).Nodup) (h : ∃ v, klookup k l = some v) :
    (kerase k l).length + 1 = l.length := by
  induction l with
  | nil => simp [klookup] at h
  | cons p rest ih =>
    obtain ⟨k0, v0⟩ := p
    simp only [List.map_cons, List.nodup_cons] at hnd
    by_cases hk : k0 = k
    · subst hk
      have hrest : klookup k0 rest = none := by
        rcases hr : klookup k0 rest with _ | w
        · rfl
        · exact absurd (mem_keys_of_klookup _ _ _ hr) hnd.1
      have h1 : kerase k0 ((k0, v0) :: rest) = kerase k0 rest := by
        simp [kerase, List.filter_cons]
      rw [h1, kerase_of_not_mem _ _ hrest]
      simp
    · obtain ⟨v, hv⟩ := h
      simp only [klookup, beq_iff_eq, hk, if_false] at hv
      have ih2 := ih hnd.2 ⟨v, hv⟩
      simp only [kerase, List.filter_cons] at ih2 ⊢
      simp only [List.length_cons]
      rw [if_pos (by simp [hk])]
      simpa using ih2

/-! ### C2 — the `/download` handler cannot bind `DownloadManager.start` -/

/-- C2: the `/download` handler passes four positional arguments to
`DownloadManager.start`, whose eight parameters all lack defaults, so
Python's binding check fails: every invocation of the endpoint raises
`TypeError` before `start` runs, and the job table is left exactly as it
was — no job is ever registered through this endpoint. -/
theorem download_endpoint_always_type_error (jobs : List (String × Job)) (freshId : String) :
    downloadCallArgs.length = 4 ∧ startParams.length = 8 ∧
      downloadEndpoint jobs freshId = (some "TypeError", jobs) := by
  refine ⟨rfl, rfl, ?_⟩
  simp [downloadEndpoint, bindsPositional, downloadCallArgs, startParams, startDefaults]

/-! ### C1 — observing cancellation ends the job `failed`, not `cancelled` -/

/-- C1 (code bug evaluation): a job cancelled before its next progress
callback has the hook raise `Exception("Download cancelled")`; that
message does not contain `"HTTP Error 429"`, so the catch-all handler of
`_run` marks the job `failed` with the cancellation message as its
error.  No execution path of the source ever assigns status
`cancelled`, so observing cancellation converts `cancelling` to
`failed`, contradicting the claim — though the job indeed never reverts
to `queued`. -/
theorem cancelled_job_ends_failed :
    (runJob "j" [⟨[RunEvent.cancelReq, RunEvent.prog (PEvent.finished none)], Except.ok ()⟩]).job.status
        = "failed" ∧
      (runJob "j" [⟨[RunEvent.cancelReq, RunEvent.prog (PEvent.finished none)], Except.ok ()⟩]).job.error
        = some "Download cancelled" ∧
      (runJob "j" [⟨[RunEvent.cancelReq, RunEvent.prog (PEvent.finished none)], Except.ok ()⟩]).job.status
        ≠ "cancelled" ∧
      (runJob "j" [⟨[RunEvent.cancelReq, RunEvent.prog (PEvent.finished none)], Except.ok ()⟩]).job.status
        ≠ "queued" := by
  refine ⟨by decide, by decide, by decide, by decide⟩

/-! ### C3 — the download retry ceiling admits four attempts, not three -/

/-- C3 (counterexample): with every attempt failing as `"HTTP Error 429"`,
the `while` loop of `_run` starts four `ydl.download` attempts — the
guard `attempts <= max_retries` is evaluated after the increment, so
`max_retries = 3` bounds the retries, not the total attempts.  The
claim's three-attempt ceiling is exceeded. -/
theorem download_retry_four_attempts :
    ¬ (runJob "j" (List.replicate 4 ⟨[], Except.error "HTTP Error 429"⟩)).attemptsMade ≤ 3 ∧
      (runJob "j" (List.replicate 4 ⟨[], Except.error "HTTP Error 429"⟩)).backoffs = [2, 4, 6] ∧
      (runJob "j" (List.replicate 4 ⟨[], Except.error "HTTP Error 429"⟩)).job.status = "failed" := by
  refine ⟨by decide, by decide, by decide⟩

/-- Invariant of the `_run` retry loop from a state with `f` failures
already recorded: at least one and at most `4 - f` further attempts are
started; every attempt after the first is preceded by exactly one
backoff sleep of `2 * (failure count)` seconds; every retried failure
was a rate-limit-class one; and the loop ends with the job `completed`,
or `failed` with the error recorded. -/
theorem runLoop_ok (scripts : List Attempt) : ∀ (f : Nat) (job : Job),
    f ≤ 3 → 4 - f ≤ scripts.length →
    1 ≤ (runLoop job f scripts).attemptsMade ∧
    (runLoop job f scripts).attemptsMade ≤ 4 - f ∧
    (runLoop job f scripts).attemptsMade = (runLoop job f scripts).backoffs.length + 1 ∧
    (∀ i (hi : i < (runLoop job f scripts).backoffs.length),
      (runLoop job f scripts).backoffs.get ⟨i, hi⟩ = 2 * (f + i + 1)) ∧
    (∀ m ∈ (runLoop job f scripts).retryErrors, strHas "HTTP Error 429" m = true) ∧
    ((runLoop job f scripts).job.status = "completed" ∨
      ((runLoop job f scripts).job.status = "failed" ∧
        (runLoop job f scripts).job.error ≠ none)) := by
  induction scripts with
  | nil =>
    intro f job hf hlen
    simp only [List.length_nil] at hlen
    omega
  | cons a rest ih =>
    intro f job hf hlen
    rcases hra : runAttempt job a with ⟨job1, exc⟩
    rcases exc with _ | msg
    · have hr : runLoop job f (a :: rest) =
          ⟨{ job1 with status := "completed", progress := 100 }, 1, [], []⟩ := by
        simp only [runLoop, hra]
      have hatt : (runLoop job f (a :: rest)).attemptsMade = 1 := by rw [hr]
      have hback : (runLoop job f (a :: rest)).backoffs = [] := by rw [hr]
      have herr : (runLoop job f (a :: rest)).retryErrors = [] := by rw [hr]
      have hst : (runLoop job f (a :: rest)).job.status = "completed" := by rw [hr]
      rw [hatt, hback, herr]
      exact ⟨Nat.le_refl 1, by omega, rfl,
        fun i hi => absurd hi (by simp), fun m hm => absurd hm (by simp), Or.inl hst⟩
    · by_cases hc : (strHas "HTTP Error 429" msg && decide (f + 1 ≤ runMaxRetries)) = true
      · have h429 : strHas "HTTP Error 429" msg = true := (Bool.and_eq_true _ _ |>.mp hc).1
        have hf1 : f + 1 ≤ 3 := by
          have := of_decide_eq_true (Bool.and_eq_true _ _ |>.mp hc).2
          simpa [runMaxRetries] using this
        have hlen1 : 4 - (f + 1) ≤ rest.length := by
          simp only [List.length_cons] at hlen
          omega
        obtain ⟨h1, h2, h3, h4, h5, h6⟩ :=
          ih (f + 1) { job1 with status := "retrying", error := some msg } hf1 hlen1
        have hr : runLoop job f (a :: rest) =
            ⟨(runLoop { job1 with status := "retrying", error := some msg } (f + 1) rest).job,
              (runLoop { job1 with status := "retrying", error := some msg } (f + 1) rest).attemptsMade + 1,
              backoffSeconds * (f + 1) ::
                (runLoop { job1 with status := "retrying", error := some msg } (f + 1) rest).backoffs,
              msg ::
                (runLoop { job1 with status := "retrying", error := some msg } (f + 1) rest).retryErrors⟩ := by
          simp only [runLoop, hra]
          rw [if_pos hc]
        have hatt : (runLoop job f (a :: rest)).attemptsMade =
            (runLoop { job1 with status := "retrying", error := some msg }
              (f + 1) rest).attemptsMade + 1 := by rw [hr]
        have hback : (runLoop job f (a :: rest)).backoffs =
            backoffSeconds * (f + 1) ::
              (runLoop { job1 with status := "retrying", error := some msg }
                (f + 1) rest).backoffs := by rw [hr]
        have herr : (runLoop job f (a :: rest)).retryErrors =
            msg :: (runLoop { job1 with status := "retrying", error := some msg }
              (f + 1) rest).retryErrors := by rw [hr]
        have hjob : (runLoop job f (a :: rest)).job =
            (runLoop { job1 with status := "retrying", error := some msg }
              (f + 1) rest).job := by rw [hr]
        rw [hatt, hback, herr, hjob]
        refine ⟨by omega, by omega, ?_, ?_, ?_, h6⟩
        · simp only [List.length_cons]
          omega
        · intro i hi
          match i with
          | 0 =>
            show backoffSeconds * (f + 1) = 2 * (f + 0 + 1)
            simp [backoffSeconds]
          | Nat.succ j =>
            have hj : j < (runLoop { job1 with status := "retrying", error := some msg }
                (f + 1) rest).backoffs.length := by
              simpa using hi
            show (runLoop { job1 with status := "retrying", error := some msg }
                (f + 1) rest).backoffs.get ⟨j, hj⟩ = 2 * (f + (j + 1) + 1)
            exact (h4 j hj).trans (by omega)
        · intro m hm
          simp only [List.mem_cons] at hm
          rcases hm with hm | hm
          · rw [hm]; exact h429
          · exact h5 m hm
      · have hc' := eq_false_of_ne_true hc
        have hr : runLoop job f (a :: rest) =
            ⟨{ job1 with status := "failed", error := some msg }, 1, [], []⟩ := by
          simp only [runLoop, hra]
          rw [if_neg hc]
        have hatt : (runLoop job f (a :: rest)).attemptsMade = 1 := by rw [hr]
        have hback : (runLoop job f (a :: rest)).backoffs = [] := by rw [hr]
        have herr : (runLoop job f (a :: rest)).retryErrors = [] := by rw [hr]
        have hst : (runLoop job f (a :: rest)).job.status = "failed" := by rw [hr]
        have her2 : (runLoop job f (a :: rest)).job.error = some msg := by rw [hr]
        rw [hatt, hback, herr]
        exact ⟨Nat.le_refl 1, by omega, rfl,
          fun i hi => absurd hi (by simp), fun m hm => absurd hm (by simp),
          Or.inr ⟨hst, by rw [her2]; simp⟩⟩

/-- C3 (amended): for every execution path of `_run`, the external
download operation is attempted at most 4 times in total — one initial
attempt plus up to `max_retries = 3` retries, since the guard
`attempts <= max_retries` runs after the failure counter is
incremented.  Each retried failure is of the rate-limit class (its text
contains `"HTTP Error 429"`) and is followed by a backoff of
`2 * (failure count)` seconds, proportional to the attempt count; on
any other failure, or on exhaustion of the ceiling, the loop stops with
the job `failed` and the error recorded (a successful attempt ends it
`completed`). -/
theorem download_retry_policy (job : Job) (scripts : List Attempt)
    (h : 4 ≤ scripts.length) :
    1 ≤ (runLoop job 0 scripts).attemptsMade ∧
    (runLoop job 0 scripts).attemptsMade ≤ 4 ∧
    (runLoop job 0 scripts).attemptsMade = (runLoop job 0 scripts).backoffs.length + 1 ∧
    (∀ i (hi : i < (runLoop job 0 scripts).backoffs.length),
      (runLoop job 0 scripts).backoffs.get ⟨i, hi⟩ = 2 * (i + 1)) ∧
    (∀ m ∈ (runLoop job 0 scripts).retryErrors, strHas "HTTP Error 429" m = true) ∧
    ((runLoop job 0 scripts).job.status = "completed" ∨
      ((runLoop job 0 scripts).job.status = "failed" ∧
        (runLoop job 0 scripts).job.error ≠ none)) := by
  obtain ⟨h1, h2, h3, h4, h5, h6⟩ := runLoop_ok scripts 0 job (by omega) (by omega)
  exact ⟨h1, by simpa using h2, h3, by simpa using h4, h5, h6⟩

/-- Witness for `download_retry_policy` at a concrete four-script run. -/
theorem download_retry_policy_w :
    (runLoop (initialJob "j") 0 (List.replicate 4 ⟨[], Except.error "HTTP Error 429"⟩)).attemptsMade
      ≤ 4 :=
  (download_retry_policy (initialJob "j") (List.replicate 4 ⟨[], Except.error "HTTP Error 429"⟩)
    (by decide)).2.1

/-! ### C4 — `cancel` on terminal jobs is not a no-op -/

/-- A job that has already finished successfully. -/
def completedJob : Job :=
  { initialJob "a" with status := "completed", progress := 100 }

/-- A job table holding one completed job. -/
def jobsCompleted : List (String × Job) := [("a", completedJob)]

/-- C4 (counterexample): cancelling an existing job in the terminal state
`completed` returns true but is not a no-op — `cancel` unconditionally
overwrites the status with `cancelling` and sets the cancellation flag,
so the job's stored state changes. -/
theorem cancel_completed_not_noop :
    (DownloadManager.cancel jobsCompleted "a").1 = true ∧
      (DownloadManager.cancel jobsCompleted "a").2 ≠ jobsCompleted ∧
      klookup "a" (DownloadManager.cancel jobsCompleted "a").2 =
        some { completedJob with cancel := true, status := "cancelling" } ∧
      completedJob.status = "completed" := by
  refine ⟨by decide, by decide, by decide, by decide⟩

/-- C4 (amended): `cancel` on an unknown job id returns false and leaves
the table unchanged.  On an existing job it always returns true and
unconditionally stores the job with its cancellation flag set and its
status overwritten to `cancelling`, whatever the prior status — leaving
every other job untouched; this is a no-op only when the job is already
`cancelling` with the flag set (in particular `cancel` is idempotent),
not for terminal jobs, whose status it rewrites. -/
theorem cancel_spec (jobs : List (String × Job)) (job_id : String) :
    (klookup job_id jobs = none → DownloadManager.cancel jobs job_id = (false, jobs)) ∧
    (∀ j, klookup job_id jobs = some j →
      (DownloadManager.cancel jobs job_id).1 = true ∧
      klookup job_id (DownloadManager.cancel jobs job_id).2 =
        some { j with cancel := true, status := "cancelling" } ∧
      (∀ id2, id2 ≠ job_id →
        klookup id2 (DownloadManager.cancel jobs job_id).2 = klookup id2 jobs) ∧
      (j.status = "cancelling" ∧ j.cancel = true →
        (DownloadManager.cancel jobs job_id).2 = jobs)) := by
  constructor
  · intro hnone
    simp [DownloadManager.cancel, hnone]
  · intro j hj
    refine ⟨by simp [DownloadManager.cancel, hj], ?_, ?_, ?_⟩
    · simp only [DownloadManager.cancel, hj]
      exact klookup_kset_self _ _ _
    · intro id2 hne
      simp only [DownloadManager.cancel, hj]
      exact klookup_kset_other _ _ hne _ _
    · rintro ⟨hst, hcl⟩
      have hjj : ({ j with cancel := true, status := "cancelling" } : Job) = j := by
        cases j
        simp_all
      simp only [DownloadManager.cancel, hj, hjj]
      rw [kset_same_of_klookup _ _ _ hj]

/-- A job table holding one job already cancelling with its flag set. -/
def jobsCancelling : List (String × Job) :=
  [("a", { initialJob "a" with status := "cancelling", cancel := true })]

/-- Witness for `cancel_spec`: on a table with one already-cancelling job,
`cancel` leaves the table exactly as it was. -/
theorem cancel_spec_w :
    (DownloadManager.cancel jobsCancelling "a").2 = jobsCancelling :=
  ((cancel_spec jobsCancelling "a").2
    { initialJob "a" with status := "cancelling", cancel := true } (by decide)).2.2.2
    ⟨rfl, rfl⟩

/-! ### C5 — the staged cookie file does not survive past the first attempt -/

/-- C5 (code bug evaluation): `run_extract` with cookie material whose
first attempt fails with a rate-limit error retries — but the `finally`
block sits inside the loop body, so the staged cookie file is removed at
the end of attempt 1 and the retry runs without it
(`cookieAvailable = [true, false]`).  The removal succeeds exactly once
and is attempted again (failing silently) after the second attempt, and
the call as a whole still returns successfully; the claim's guarantee
that the file is available on every attempt and discarded only when the
call completes is violated. -/
theorem cookie_file_removed_after_first_attempt :
    (run_extract [ExtractOutcome.failure "HTTP Error 429: Too Many Requests",
        ExtractOutcome.success]).cookieAvailable = [true, false] ∧
      (run_extract [ExtractOutcome.failure "HTTP Error 429: Too Many Requests",
        ExtractOutcome.success]).removesSucceeded = 1 ∧
      (run_extract [ExtractOutcome.failure "HTTP Error 429: Too Many Requests",
        ExtractOutcome.success]).removeCalls = 2 ∧
      (run_extract [ExtractOutcome.failure "HTTP Error 429: Too Many Requests",
        ExtractOutcome.success]).result = Except.ok () ∧
      (run_extract [ExtractOutcome.failure "HTTP Error 429: Too Many Requests",
        ExtractOutcome.success]).fileExistsAfter = false := by
  refine ⟨by decide, by decide, by decide, by decide, by decide⟩

/-! ### C7 — the extraction retry/backoff policy -/

/-- Invariant of the `run_extract` retry loop from loop index `a`: between
one and `3 - a` further attempts run; each retry is preceded by a sleep
of `(attempt index + 1) * 10` seconds; an attempt beyond the first is
run only after a rate-limit-class failure; and the call returns
successfully iff the last executed attempt succeeded, surfacing the
final failure's message otherwise. -/
theorem extractCk_ok (outcomes : List ExtractOutcome) : ∀ (a : Nat) (fe : Bool),
    a ≤ 2 → 3 - a ≤ outcomes.length →
    1 ≤ (extractCk a fe outcomes).attemptsRun ∧
    (extractCk a fe outcomes).attemptsRun ≤ 3 - a ∧
    (extractCk a fe outcomes).sleeps.length + 1 = (extractCk a fe outcomes).attemptsRun ∧
    (∀ i (hi : i < (extractCk a fe outcomes).sleeps.length),
      (extractCk a fe outcomes).sleeps.get ⟨i, hi⟩ = (a + i + 1) * 10) ∧
    (∀ i, i + 1 < (extractCk a fe outcomes).attemptsRun →
      ∃ m, outcomes.get? i = some (ExtractOutcome.failure m) ∧ isRateLimited m = true) ∧
    ((extractCk a fe outcomes).result = Except.ok () ↔
      outcomes.get? ((extractCk a fe outcomes).attemptsRun - 1) = some ExtractOutcome.success) ∧
    (∀ m, outcomes.get? ((extractCk a fe outcomes).attemptsRun - 1) =
        some (ExtractOutcome.failure m) →
      (extractCk a fe outcomes).result = Except.error m) := by
  induction outcomes with
  | nil =>
    intro a fe ha hlen
    simp only [List.length_nil] at hlen
    omega
  | cons o rest ih =>
    intro a fe ha hlen
    rcases o with _ | m
    · have hr : extractCk a fe (ExtractOutcome.success :: rest) =
          ⟨Except.ok (), 1, [], [fe], 1, if fe then 1 else 0, false⟩ := by
        simp only [extractCk]
      have hres : (extractCk a fe (ExtractOutcome.success :: rest)).result = Except.ok () := by
        rw [hr]
      have hatt : (extractCk a fe (ExtractOutcome.success :: rest)).attemptsRun = 1 := by
        rw [hr]
      have hsl : (extractCk a fe (ExtractOutcome.success :: rest)).sleeps = [] := by
        rw [hr]
      rw [hatt, hsl, hres]
      refine ⟨Nat.le_refl 1, by omega, rfl, fun i hi => absurd hi (by simp),
        fun i hi => absurd hi (by omega), ?_, ?_⟩
      · simp
      · intro m hm
        simp at hm
    · by_cases hc : (isRateLimited m && decide (a < extractMaxRetries - 1)) = true
      · have hrl : isRateLimited m = true := (Bool.and_eq_true _ _ |>.mp hc).1
        have ha1 : a + 1 ≤ 2 := by
          have := of_decide_eq_true (Bool.and_eq_true _ _ |>.mp hc).2
          simp only [extractMaxRetries] at this
          omega
        have hlen1 : 3 - (a + 1) ≤ rest.length := by
          simp only [List.length_cons] at hlen
          omega
        obtain ⟨h1, h2, h3, h4, h5, h6, h7⟩ := ih (a + 1) false ha1 hlen1
        have hr : extractCk a fe (ExtractOutcome.failure m :: rest) =
            ⟨(extractCk (a + 1) false rest).result,
              (extractCk (a + 1) false rest).attemptsRun + 1,
              (a + 1) * 10 :: (extractCk (a + 1) false rest).sleeps,
              fe :: (extractCk (a + 1) false rest).cookieAvailable,
              (extractCk (a + 1) false rest).removeCalls + 1,
              (if fe then 1 else 0) + (extractCk (a + 1) false rest).removesSucceeded,
              (extractCk (a + 1) false rest).fileExistsAfter⟩ := by
          simp only [extractCk]
          rw [if_pos hc]
        have hres : (extractCk a fe (ExtractOutcome.failure m :: rest)).result =
            (extractCk (a + 1) false rest).result := by rw [hr]
        have hatt : (extractCk a fe (ExtractOutcome.failure m :: rest)).attemptsRun =
            (extractCk (a + 1) false rest).attemptsRun + 1 := by rw [hr]
        have hsl : (extractCk a fe (ExtractOutcome.failure m :: rest)).sleeps =
            (a + 1) * 10 :: (extractCk (a + 1) false rest).sleeps := by rw [hr]
        rw [hres, hatt, hsl]
        have hidx : (extractCk (a + 1) false rest).attemptsRun + 1 - 1 =
            ((extractCk (a + 1) false rest).attemptsRun - 1) + 1 := by omega
        refine ⟨by omega, by omega, ?_, ?_, ?_, ?_, ?_⟩
        · simp only [List.length_cons]
          omega
        · intro i hi
          match i with
          | 0 =>
            show (a + 1) * 10 = (a + 0 + 1) * 10
            rfl
          | Nat.succ j =>
            have hj : j < (extractCk (a + 1) false rest).sleeps.length := by
              simpa using hi
            show (extractCk (a + 1) false rest).sleeps.get ⟨j, hj⟩ = (a + (j + 1) + 1) * 10
            exact (h4 j hj).trans (by ring_nf)
        · intro i hi
          match i with
          | 0 => exact ⟨m, by simp, hrl⟩
          | Nat.succ j =>
            have hj : j + 1 < (extractCk (a + 1) false rest).attemptsRun := by omega
            obtain ⟨m2, hm2, hm2r⟩ := h5 j hj
            exact ⟨m2, by simpa using hm2, hm2r⟩
        · rw [hidx]
          simpa using h6
        · intro m2 hm2
          rw [hidx] at hm2
          exact h7 m2 (by simpa using hm2)
      · have hr : extractCk a fe (ExtractOutcome.failure m :: rest) =
            ⟨Except.error m, 1, [], [fe], 1, if fe then 1 else 0, false⟩ := by
          simp only [extractCk]
          rw [if_neg hc]
        have hres : (extractCk a fe (ExtractOutcome.failure m :: rest)).result =
            Except.error m := by rw [hr]
        have hatt : (extractCk a fe (ExtractOutcome.failure m :: rest)).attemptsRun = 1 := by
          rw [hr]
        have hsl : (extractCk a fe (ExtractOutcome.failure m :: rest)).sleeps = [] := by
          rw [hr]
        rw [hatt, hsl, hres]
        refine ⟨Nat.le_refl 1, by omega, rfl, fun i hi => absurd hi (by simp),
          fun i hi => absurd hi (by omega), ?_, ?_⟩
        · constructor
          · intro h
            cases h
          · intro h
            simp at h
        · intro m2 hm2
          simp at hm2
          rw [hm2]

/-- C7: each `run_extract` call attempts the external extraction at most
3 times in total; every attempt beyond the first happens only after a
failure whose text signals a rate-limit condition (`"429"` or
`"too many requests"`, case-insensitively) and is preceded by a backoff
of `(attempt index + 1) * 10` seconds; any non-rate-limit failure, or a
failure once the 3 attempts are exhausted, surfaces immediately as the
call's terminal failure with no further attempt, and the call succeeds
iff its last executed attempt did. -/
theorem run_extract_retry_policy (outcomes : List ExtractOutcome)
    (h : 3 ≤ outcomes.length) :
    1 ≤ (run_extract outcomes).attemptsRun ∧
    (run_extract outcomes).attemptsRun ≤ 3 ∧
    (run_extract outcomes).sleeps.length + 1 = (run_extract outcomes).attemptsRun ∧
    (∀ i (hi : i < (run_extract outcomes).sleeps.length),
      (run_extract outcomes).sleeps.get ⟨i, hi⟩ = (i + 1) * 10) ∧
    (∀ i, i + 1 < (run_extract outcomes).attemptsRun →
      ∃ m, outcomes.get? i = some (ExtractOutcome.failure m) ∧ isRateLimited m = true) ∧
    ((run_extract outcomes).result = Except.ok () ↔
      outcomes.get? ((run_extract outcomes).attemptsRun - 1) = some ExtractOutcome.success) ∧
    (∀ m, outcomes.get? ((run_extract outcomes).attemptsRun - 1) =
        some (ExtractOutcome.failure m) →
      (run_extract outcomes).result = Except.error m) := by
  obtain ⟨h1, h2, h3, h4, h5, h6, h7⟩ := extractCk_ok outcomes 0 true (by omega) (by omega)
  exact ⟨h1, by simpa using h2, h3, by simpa using h4, h5, h6, h7⟩

/-- Witness for `run_extract_retry_policy` at a concrete script: one
rate-limited failure, then success. -/
theorem run_extract_retry_policy_w :
    (run_extract [ExtractOutcome.failure "HTTP Error 429", ExtractOutcome.success,
      ExtractOutcome.success]).attemptsRun ≤ 3 :=
  (run_extract_retry_policy [ExtractOutcome.failure "HTTP Error 429", ExtractOutcome.success,
    ExtractOutcome.success] (by decide)).2.1

/-! ### C6 — progress is exactly what the collaborator reports -/

/-- C6 (counterexample): the hook recomputes `progress` directly from the
reported byte counts with no clamping and no monotonicity enforcement:
a callback reporting fewer downloaded bytes than its predecessor lowers
the progress (50 → 10), and one reporting more bytes than the total
pushes it past 100 (to 200). -/
theorem progress_not_monotone_cx :
    (processEvents (initialJob "j")
        [RunEvent.prog (PEvent.downloading (some 50) (some 100) none)]).1.progress = 50 ∧
      (processEvents (initialJob "j")
        [RunEvent.prog (PEvent.downloading (some 50) (some 100) none),
          RunEvent.prog (PEvent.downloading (some 10) (some 100) none)]).1.progress = 10 ∧
      (10 : ℚ) < 50 ∧
      (processEvents (initialJob "j")
        [RunEvent.prog (PEvent.downloading (some 200) (some 100) none)]).1.progress = 200 ∧
      (100 : ℚ) < 200 := by
  refine ⟨?_, ?_, by norm_num, ?_, by norm_num⟩
  · simp [processEvents, hook, hookUpdate, pyOr, initialJob]
  · simp [processEvents, hook, hookUpdate, pyOr, initialJob]
  · simp [processEvents, hook, hookUpdate, pyOr, initialJob]

theorem pyOr_some_zero (x : ℚ) : pyOr (some x) 0 = x := by
  simp only [pyOr]
  split
  · simp_all
  · rfl

/-- Under a fixed truthy total `T`, the hook turns each reported byte
count `d` into progress `d / T * 100`. -/
theorem progressSeq_const_total (T : ℚ) (hT : T ≠ 0) :
    ∀ (ds : List ℚ) (j : Job),
      progressSeq j (ds.map (fun d => PEvent.downloading (some d) (some T) none)) =
        ds.map (fun d => d / T * 100) := by
  intro ds
  induction ds with
  | nil => intro j; rfl
  | cons d rest ih =>
    intro j
    have hTT : pyOr (some T) (pyOr none 0) = T := by simp [pyOr, hT]
    have hp : (hookUpdate j (PEvent.downloading (some d) (some T) none)).progress =
        d / T * 100 := by
      simp only [hookUpdate, pyOr_some_zero, hTT]
      rw [if_neg hT]
    simp only [List.map_cons, progressSeq, hp, List.cons.injEq, true_and]
    exact ih _

theorem monoQ_map (g : ℚ → ℚ) (hg : Monotone g) :
    ∀ ds : List ℚ, monoQ ds → monoQ (ds.map g) := by
  intro ds
  induction ds with
  | nil => intro h; trivial
  | cons a rest ih =>
    intro h
    cases rest with
    | nil => trivial
    | cons b rest2 =>
      obtain ⟨hab, hrest⟩ := h
      exact ⟨hg hab, ih hrest⟩

theorem monoQ_cons (c : ℚ) (l : List ℚ) (h : monoQ l) (hc : ∀ x ∈ l, c ≤ x) :
    monoQ (c :: l) := by
  cases l with
  | nil => trivial
  | cons a rest => exact ⟨hc a (by simp), h⟩

/-- C6 (amended): the hook neither clamps nor enforces monotonicity —
progress after each `downloading` callback is exactly the reported
`downloaded / total * 100` when a truthy total is reported, and holds
its previous value when the total is unknown.  Consequently, for a job
starting at progress 0 whose collaborator reports a fixed nonzero total
`T` and non-decreasing downloaded byte counts bounded by `T`, the
progress values are non-decreasing and stay within 0 to 100. -/
theorem progress_monotone_of_monotone_reports (j : Job) (T : ℚ) (ds : List ℚ)
    (hT : 0 < T) (hbound : ∀ d ∈ ds, 0 ≤ d ∧ d ≤ T) (hmono : monoQ ds)
    (hj : j.progress = 0) :
    monoQ (j.progress ::
      progressSeq j (ds.map (fun d => PEvent.downloading (some d) (some T) none))) ∧
    (∀ p ∈ progressSeq j (ds.map (fun d => PEvent.downloading (some d) (some T) none)),
      0 ≤ p ∧ p ≤ 100) ∧
    (∀ (j2 : Job) (x : Option ℚ),
      (hookUpdate j2 (PEvent.downloading x none none)).progress = j2.progress) := by
  have hT' : T ≠ 0 := ne_of_gt hT
  rw [progressSeq_const_total T hT' ds j]
  have hgmono : Monotone fun d : ℚ => d / T * 100 := by
    intro x y hxy
    have h1 : x / T ≤ y / T := (div_le_div_iff_of_pos_right hT).mpr hxy
    have h2 : x / T * 100 ≤ y / T * 100 :=
      mul_le_mul_of_nonneg_right h1 (by norm_num)
    exact h2
  refine ⟨?_, ?_, ?_⟩
  · refine monoQ_cons _ _ (monoQ_map _ hgmono ds hmono) ?_
    intro x hx
    rw [hj]
    obtain ⟨d, hd, rfl⟩ := List.mem_map.mp hx
    have hd0 : 0 ≤ d := (hbound d hd).1
    positivity
  · intro p hp
    obtain ⟨d, hd, rfl⟩ := List.mem_map.mp hp
    obtain ⟨hd0, hdT⟩ := hbound d hd
    constructor
    · positivity
    · have h1 : d / T ≤ 1 := (div_le_one hT).mpr hdT
      have h2 : d / T * 100 ≤ 1 * 100 := mul_le_mul_of_nonneg_right h1 (by norm_num)
      simpa using h2
  · intro j2 x
    simp [hookUpdate, pyOr]

/-- Witness for `progress_monotone_of_monotone_reports`: a fresh job with
total 100 and reports 0 then 50. -/
theorem progress_monotone_w :
    monoQ ((initialJob "x").progress ::
      progressSeq (initialJob "x")
        (([0, 50] : List ℚ).map (fun d => PEvent.downloading (some d) (some 100) none))) :=
  (progress_monotone_of_monotone_reports (initialJob "x") 100 [0, 50] (by decide)
    (by decide) ⟨by decide, trivial⟩ rfl).1

/-! ### C8 — the sliding-window admission limiter -/

/-- While a client's stored history plus the incoming call instants all
lie within one window and their total count fits under the limit, every
call is admitted and the history grows by exactly the call instants, in
order; the limit and window are never modified. -/
theorem allowRun_all_true (c : String) : ∀ (times : List ℤ) (rl : RateLimiter),
    (∀ a ∈ rl.requests c ++ times, ∀ b ∈ rl.requests c ++ times, b - a < rl.window_seconds) →
    (rl.requests c).length + times.length ≤ rl.limit →
    (allowRun rl c times).2 = List.replicate times.length true ∧
    (allowRun rl c times).1.requests c = rl.requests c ++ times ∧
    (allowRun rl c times).1.limit = rl.limit ∧
    (allowRun rl c times).1.window_seconds = rl.window_seconds := by
  intro times
  induction times with
  | nil =>
    intro rl hsp hlen
    exact ⟨rfl, by simp [allowRun], rfl, rfl⟩
  | cons t rest ih =>
    intro rl hsp hlen
    have hmemt : t ∈ rl.requests c ++ (t :: rest) := by simp
    have hprune : (rl.requests c).filter (fun x => decide (t - x < rl.window_seconds)) =
        rl.requests c := by
      apply List.filter_eq_self.mpr
      intro x hx
      exact decide_eq_true (hsp x (by simp [hx]) t hmemt)
    have hlt : ¬ rl.limit ≤
        ((rl.requests c).filter (fun x => decide (t - x < rl.window_seconds))).length := by
      rw [hprune]
      simp only [List.length_cons] at hlen
      omega
    have hallow : rl.allow c t =
        (true, { rl with
          requests := fun c2 => if c2 = c then rl.requests c ++ [t] else rl.requests c2 }) := by
      simp only [RateLimiter.allow]
      rw [if_neg hlt, hprune]
    have hrun : allowRun rl c (t :: rest) =
        ((allowRun { rl with
            requests := fun c2 => if c2 = c then rl.requests c ++ [t] else rl.requests c2 }
          c rest).1,
          true :: (allowRun { rl with
            requests := fun c2 => if c2 = c then rl.requests c ++ [t] else rl.requests c2 }
          c rest).2) := by
      simp only [allowRun, hallow]
    have hreq2 : ({ rl with
        requests := fun c2 => if c2 = c then rl.requests c ++ [t] else rl.requests c2 }
          : RateLimiter).requests c = rl.requests c ++ [t] := by
      simp
    have hsp2 : ∀ a ∈ ({ rl with
          requests := fun c2 => if c2 = c then rl.requests c ++ [t] else rl.requests c2 }
            : RateLimiter).requests c ++ rest,
        ∀ b ∈ ({ rl with
          requests := fun c2 => if c2 = c then rl.requests c ++ [t] else rl.requests c2 }
            : RateLimiter).requests c ++ rest,
        b - a < ({ rl with
          requests := fun c2 => if c2 = c then rl.requests c ++ [t] else rl.requests c2 }
            : RateLimiter).window_seconds := by
      intro a ha b hb
      rw [hreq2] at ha hb
      apply hsp
      · simp only [List.mem_append, List.mem_cons]
        simp only [List.mem_append, List.mem_singleton] at ha
        tauto
      · simp only [List.mem_append, List.mem_cons]
        simp only [List.mem_append, List.mem_singleton] at hb
        tauto
    have hlen2 : (({ rl with
        requests := fun c2 => if c2 = c then rl.requests c ++ [t] else rl.requests c2 }
          : RateLimiter).requests c).length + rest.length ≤ ({ rl with
        requests := fun c2 => if c2 = c then rl.requests c ++ [t] else rl.requests c2 }
          : RateLimiter).limit := by
      rw [hreq2]
      simp only [List.length_append, List.length_singleton]
      simp only [List.length_cons] at hlen
      omega
    obtain ⟨ih1, ih2, ih3, ih4⟩ := ih _ hsp2 hlen2
    rw [hrun]
    refine ⟨?_, ?_, ih3, ih4⟩
    · simp only [List.length_cons, List.replicate_succ]
      rw [ih1]
    · rw [ih2, hreq2, List.append_assoc]
      rfl

/-- C8: starting from a fresh limiter with limit `L > 0` and window `W`,
any `L` consecutive `allow` calls whose instants all lie within `W` of
each other are all admitted, and the client's window then holds exactly
those `L` instants.  A further call still within `W` of all of them is
rejected and records no new timestamp — the stored (pruned) list is
unchanged — while a call made once `W` has elapsed since every recorded
instant is admitted again. -/
theorem rate_limiter_sliding_window (L : Nat) (W : ℤ) (c : String) (times : List ℤ)
    (hL : 0 < L) (hlen : times.length = L)
    (hsp : ∀ a ∈ times, ∀ b ∈ times, b - a < W) :
    (allowRun ⟨L, W, fun _ => []⟩ c times).2 = List.replicate L true ∧
    (allowRun ⟨L, W, fun _ => []⟩ c times).1.requests c = times ∧
    (∀ now, (∀ u ∈ times, now - u < W) →
      ((allowRun ⟨L, W, fun _ => []⟩ c times).1.allow c now).1 = false ∧
      ((allowRun ⟨L, W, fun _ => []⟩ c times).1.allow c now).2.requests c = times) ∧
    (∀ now2, (∀ u ∈ times, W ≤ now2 - u) →
      ((allowRun ⟨L, W, fun _ => []⟩ c times).1.allow c now2).1 = true) := by
  obtain ⟨h1, h2, h3, h4⟩ := allowRun_all_true c times ⟨L, W, fun _ => []⟩
    (by simpa using hsp) (by simp [hlen])
  have h2' : (allowRun ⟨L, W, fun _ => []⟩ c times).1.requests c = times := by
    simpa using h2
  refine ⟨by rw [h1, hlen], h2', ?_, ?_⟩
  · intro now hnow
    have hpr : ((allowRun ⟨L, W, fun _ => []⟩ c times).1.requests c).filter
        (fun x => decide (now - x <
          (allowRun ⟨L, W, fun _ => []⟩ c times).1.window_seconds)) = times := by
      rw [h2', h4]
      apply List.filter_eq_self.mpr
      intro x hx
      exact decide_eq_true (hnow x hx)
    have hge : (allowRun ⟨L, W, fun _ => []⟩ c times).1.limit ≤
        (((allowRun ⟨L, W, fun _ => []⟩ c times).1.requests c).filter
          (fun x => decide (now - x <
            (allowRun ⟨L, W, fun _ => []⟩ c times).1.window_seconds))).length := by
      rw [hpr, hlen, h3]
    constructor
    · simp only [RateLimiter.allow]
      rw [if_pos hge]
    · simp only [RateLimiter.allow]
      rw [if_pos hge]
      simpa using hpr
  · intro now2 hnow2
    have hpr : ((allowRun ⟨L, W, fun _ => []⟩ c times).1.requests c).filter
        (fun x => decide (now2 - x <
          (allowRun ⟨L, W, fun _ => []⟩ c times).1.window_seconds)) = [] := by
      rw [h2', h4]
      apply List.filter_eq_nil_iff.mpr
      intro x hx
      simp only [decide_eq_true_eq]
      exact not_lt.mpr (hnow2 x hx)
    have hlt : ¬ (allowRun ⟨L, W, fun _ => []⟩ c times).1.limit ≤
        (((allowRun ⟨L, W, fun _ => []⟩ c times).1.requests c).filter
          (fun x => decide (now2 - x <
            (allowRun ⟨L, W, fun _ => []⟩ c times).1.window_seconds))).length := by
      rw [hpr, h3]
      simp only [List.length_nil, Nat.le_zero]
      omega
    simp only [RateLimiter.allow]
    rw [if_neg hlt]

/-- Witness for `rate_limiter_sliding_window`: limit 2, window 10, two
calls at instants 0 and 1. -/
theorem rate_limiter_sliding_window_w :
    (allowRun ⟨2, 10, fun _ => []⟩ "cl" [0, 1]).2 = List.replicate 2 true :=
  (rate_limiter_sliding_window 2 10 "cl" [0, 1] (by decide) (by decide) (by decide)).1

/-! ### C9 — the TTL cache -/

theorem mem_keys_kset (x k : String) (v : β) :
    ∀ l : List (String × β), x ∈ (kset k v l).map Prod.fst → x ∈ l.map Prod.fst ∨ x = k := by
  intro l
  induction l with
  | nil =>
    intro h
    simp [kset] at h
    exact Or.inr h
  | cons p rest ih =>
    obtain ⟨k0, v0⟩ := p
    intro h
    by_cases hk : k0 = k
    · simp only [kset, hk, beq_self_eq_true, if_true] at h
      simp only [List.map_cons, List.mem_cons] at h ⊢
      tauto
    · have hg : (k0 == k) = false := by simp [hk]
      simp only [kset, hg, Bool.false_eq_true, if_false, List.map_cons, List.mem_cons] at h ⊢
      rcases h with h | h
      · exact Or.inl (Or.inl h)
      · rcases ih h with h2 | h2
        · exact Or.inl (Or.inr h2)
        · exact Or.inr h2

theorem kset_keys_nodup (k : String) (v : β) :
    ∀ l : List (String × β), (l.map Prod.fst).Nodup → ((kset k v l).map Prod.fst).Nodup := by
  intro l
  induction l with
  | nil => intro _; simp [kset]
  | cons p rest ih =>
    obtain ⟨k0, v0⟩ := p
    intro hnd
    simp only [List.map_cons, List.nodup_cons] at hnd
    by_cases hk : k0 = k
    · subst hk
      simp only [kset, beq_self_eq_true, if_true, List.map_cons, List.nodup_cons]
      exact hnd
    · have hg : (k0 == k) = false := by simp [hk]
      simp only [kset, hg, Bool.false_eq_true, if_false, List.map_cons, List.nodup_cons]
      refine ⟨?_, ih hnd.2⟩
      intro hmem
      rcases mem_keys_kset k0 k v rest hmem with h2 | h2
      · exact hnd.1 h2
      · exact hk h2

/-- C9: after `set(k, v)` at instant `t1`, a `get(k)` at instant `t2`
within the TTL returns `v` and leaves the cache untouched; once more
than `ttl_seconds` have elapsed it returns absent and purges `k` from
both underlying maps, so `size` drops by one; and `get` on a never-set
key returns absent without touching the cache. -/
theorem memory_cache_ttl (α : Type) (m : MemoryCache α) (k : String) (v : α) (t1 t2 : ℤ)
    (hnd : (m.cache.map Prod.fst).Nodup) :
    (t2 - t1 ≤ m.ttl_seconds →
      ((m.set k v t1).get k t2).1 = some v ∧ ((m.set k v t1).get k t2).2 = m.set k v t1) ∧
    (m.ttl_seconds < t2 - t1 →
      ((m.set k v t1).get k t2).1 = none ∧
      klookup k ((m.set k v t1).get k t2).2.cache = none ∧
      klookup k ((m.set k v t1).get k t2).2.timestamps = none ∧
      ((m.set k v t1).get k t2).2.size + 1 = (m.set k v t1).size) ∧
    (klookup k m.cache = none → m.get k t2 = (none, m)) := by
  have hc : klookup k (m.set k v t1).cache = some v := klookup_kset_self _ _ _
  have ht : klookup k (m.set k v t1).timestamps = some t1 := klookup_kset_self _ _ _
  have httl : (m.set k v t1).ttl_seconds = m.ttl_seconds := rfl
  refine ⟨?_, ?_, ?_⟩
  · intro hin
    have hguard : ¬ (m.set k v t1).ttl_seconds <
        t2 - ((klookup k (m.set k v t1).timestamps).getD 0) := by
      rw [ht, httl]
      simpa using not_lt.mpr hin
    constructor
    · simp only [MemoryCache.get, hc]
      rw [if_neg hguard]
    · simp only [MemoryCache.get, hc]
      rw [if_neg hguard]
  · intro hout
    have hguard : (m.set k v t1).ttl_seconds <
        t2 - ((klookup k (m.set k v t1).timestamps).getD 0) := by
      rw [ht, httl]
      simpa using hout
    have hres : (m.set k v t1).get k t2 =
        (none, ⟨(m.set k v t1).ttl_seconds, kerase k (m.set k v t1).cache,
          kerase k (m.set k v t1).timestamps⟩) := by
      simp only [MemoryCache.get, hc]
      rw [if_pos hguard]
    rw [hres]
    refine ⟨rfl, klookup_kerase_self _ _, klookup_kerase_self _ _, ?_⟩
    show (kerase k (m.set k v t1).cache).length + 1 = (m.set k v t1).cache.length
    exact kerase_length_of_mem k _ (kset_keys_nodup k v m.cache hnd) ⟨v, hc⟩
  · intro hnone
    simp [MemoryCache.get, hnone]

/-- Witness for `memory_cache_ttl`: an empty cache with TTL 5, `set` at
instant 0, `get` at instants 3 (hit) and 6 (expired). -/
theorem memory_cache_ttl_w :
    (((⟨5, [], []⟩ : MemoryCache Nat).set "k" 7 0).get "k" 3).1 = some 7 ∧
      (((⟨5, [], []⟩ : MemoryCache Nat).set "k" 7 0).get "k" 6).1 = none :=
  ⟨((memory_cache_ttl Nat ⟨5, [], []⟩ "k" 7 0 3 (by simp)).1 (by decide)).1,
    ((memory_cache_ttl Nat ⟨5, [], []⟩ "k" 7 0 6 (by simp)).2.1 (by decide)).1⟩

/-! ### C10 — best-audio selection -/

theorem lexLt_irrefl (a : ℚ × ℚ) : ¬ lexLt a a := by
  unfold lexLt
  rintro (h | ⟨_, h⟩) <;> exact lt_irrefl _ h

theorem lexLt_trans (a b c : ℚ × ℚ) (h1 : lexLt a b) (h2 : lexLt b c) : lexLt a c := by
  unfold lexLt at *
  rcases h1 with h1 | ⟨e1, lt1⟩ <;> rcases h2 with h2 | ⟨e2, lt2⟩
  · exact Or.inl (lt_trans h1 h2)
  · exact Or.inl (e2 ▸ h1)
  · exact Or.inl (by rw [e1]; exact h2)
  · exact Or.inr ⟨e1.trans e2, lt_trans lt1 lt2⟩

theorem not_lexLt_iff (a b : ℚ × ℚ) : ¬ lexLt a b ↔ lexLe b a := by
  unfold lexLt lexLe
  constructor
  · intro h
    push_neg at h
    rcases lt_trichotomy b.1 a.1 with h1 | h1 | h1
    · exact Or.inl h1
    · exact Or.inr ⟨h1, h.2 h1.symm⟩
    · exact absurd h1 (not_lt.mpr h.1)
  · intro h hlt
    rcases h with h | ⟨he, hle⟩
    · rcases hlt with h2 | ⟨he2, _⟩
      · exact lt_irrefl _ (lt_trans h h2)
      · rw [he2] at h
        exact lt_irrefl _ h
    · rcases hlt with h2 | ⟨he2, hlt2⟩
      · rw [he] at h2
        exact lt_irrefl _ h2
      · exact absurd hlt2 (not_lt.mpr hle)

theorem lexLe_lexLt_trans (a b c : ℚ × ℚ) (h1 : lexLe a b) (h2 : lexLt b c) : lexLt a c := by
  unfold lexLe lexLt at *
  rcases h1 with h1 | ⟨e1, le1⟩ <;> rcases h2 with h2 | ⟨e2, lt2⟩
  · exact Or.inl (lt_trans h1 h2)
  · exact Or.inl (e2 ▸ h1)
  · exact Or.inl (by rw [e1]; exact h2)
  · exact Or.inr ⟨e1.trans e2, lt_of_le_of_lt le1 lt2⟩

theorem maxByKey_eq_none (key : Fmt → ℚ × ℚ) :
    ∀ l : List Fmt, maxByKey key l = none → l = [] := by
  intro l
  cases l with
  | nil => intro _; rfl
  | cons a rest =>
    intro h
    exfalso
    simp only [maxByKey] at h
    rcases hm : maxByKey key rest with _ | g <;> rw [hm] at h
    · exact Option.noConfusion h
    · have h2 : (if lexLt (key a) (key g) then some g else some a) = none := h
      by_cases hlt : lexLt (key a) (key g)
      · rw [if_pos hlt] at h2
        exact Option.noConfusion h2
      · rw [if_neg hlt] at h2
        exact Option.noConfusion h2

/-- Python's `max` over a nonempty list returns a member whose key no
other member strictly exceeds. -/
theorem maxByKey_spec (key : Fmt → ℚ × ℚ) : ∀ (l : List Fmt) (f : Fmt),
    maxByKey key l = some f → f ∈ l ∧ ∀ g ∈ l, ¬ lexLt (key f) (key g) := by
  intro l
  induction l with
  | nil =>
    intro f h
    simp [maxByKey] at h
  | cons a rest ih =>
    intro f h
    simp only [maxByKey] at h
    rcases hm : maxByKey key rest with _ | g <;> rw [hm] at h
    · have hrest : rest = [] := maxByKey_eq_none key rest hm
      have h2 : some a = some f := h
      injection h2 with h2
      subst h2
      subst hrest
      refine ⟨by simp, ?_⟩
      intro g hg
      rcases List.mem_cons.mp hg with rfl | hg
      · exact lexLt_irrefl _
      · simp at hg
    · obtain ⟨hg_mem, hg_max⟩ := ih g hm
      have h2 : (if lexLt (key a) (key g) then some g else some a) = some f := h
      by_cases hlt : lexLt (key a) (key g)
      · rw [if_pos hlt] at h2
        injection h2 with h2
        subst h2
        refine ⟨List.mem_cons_of_mem _ hg_mem, ?_⟩
        intro x hx
        rcases List.mem_cons.mp hx with rfl | hx
        · intro hgx
          exact lexLt_irrefl _ (lexLt_trans _ _ _ hgx hlt)
        · exact hg_max x hx
      · rw [if_neg hlt] at h2
        injection h2 with h2
        subst h2
        refine ⟨List.mem_cons_self _ _, ?_⟩
        intro x hx
        rcases List.mem_cons.mp hx with rfl | hx
        · exact lexLt_irrefl _
        · intro hax
          exact hg_max x hx (lexLe_lexLt_trans _ _ _ ((not_lexLt_iff _ _).mp hlt) hax)

/-- C10: `pick_best_audio` returns absent exactly when the input has no
audio-only entry (video codec `"none"`, audio codec not `"none"`); any
returned encoding belongs to the spec's candidate set — the non-manifest
audio-only encodings when one exists, the full audio-only set otherwise
— and its (audio bitrate, total bitrate) key, missing values as 0, is
lexicographically maximal over that set.  On the spec's examples it
picks the direct-file bitrate-200 encoding over the manifest bitrate-500
one, the higher-bitrate one among manifest-only candidates, and absent
for a list with no audio-only entry. -/
theorem pick_best_audio_correct (formats : List Fmt) :
    (pick_best_audio formats = none ↔ formats.filter isAudioOnly = []) ∧
    (∀ f, pick_best_audio formats = some f →
      f ∈ audioCands formats ∧ ∀ g ∈ audioCands formats, lexLe (audioKey g) (audioKey f)) ∧
    pick_best_audio [fmtHls500, fmtDirect200] = some fmtDirect200 ∧
    pick_best_audio [fmtHls500, fmtHls64] = some fmtHls500 ∧
    pick_best_audio [fmtMuxed] = none := by
  refine ⟨⟨?_, ?_⟩, ?_, by decide, by decide, by decide⟩
  · intro h
    by_cases he : (formats.filter isAudioOnly).isEmpty
    · exact List.isEmpty_iff.mp he
    · exfalso
      simp only [pick_best_audio] at h
      rw [if_neg he] at h
      have hnil := maxByKey_eq_none _ _ h
      split at hnil
      · rw [hnil] at he
        simp at he
      · rename_i hne
        rw [hnil] at hne
        simp at hne
  · intro h
    simp [pick_best_audio, h]
  · intro f hf
    simp only [pick_best_audio] at hf
    by_cases he : (formats.filter isAudioOnly).isEmpty
    · rw [if_pos he] at hf
      exact absurd hf (by simp)
    · rw [if_neg he] at hf
      obtain ⟨hmem, hmax⟩ := maxByKey_spec audioKey _ f hf
      constructor
      · exact hmem
      · intro g hg
        exact (not_lexLt_iff _ _).mp (hmax g hg)

/-- Witness for `pick_best_audio_correct`: the direct-file encoding it
returns on the spec's two-element example is in the candidate set. -/
theorem pick_best_audio_correct_w :
    fmtDirect200 ∈ audioCands [fmtHls500, fmtDirect200] :=
  (((pick_best_audio_correct [fmtHls500, fmtDirect200]).2.1) fmtDirect200 (by decide)).1
